import Mathlib

/-!
The GitLab provider of cuppa (providers/gitlab/provider.go and
providers/gitlab/tag.go) as a shallow embedding.

Go strings are modelled as Lean strings (sequences of Unicode characters), that
is, as valid UTF-8 text.  The separator and class characters that the code looks
for (the slash and the dot) are ASCII, so searching by character and searching
by byte agree on such text.

Library calls made by the source are modelled next to the functions that call
them: the leftmost-first backtracking matcher of package regexp (for exactly the
operators the compiled pattern uses), strings.Split and strings.Replace for a
one-character separator, and fmt.Sprintf for the verb %s.  The network, the JSON
decoder, the time parser and the rendering of a version by results.NewResult
are parameters collected in World.
-/

namespace Gitlab

/-! ## package regexp: the fragment used by SourceRegex -/

/-- One-character matchers of the regular-expression syntax. -/
inductive CharSet where
  /-- Literal character. -/
  | lit (c : Char)
  /-- The dot: any character except the line feed (flag s is off by default). -/
  | dot
  /-- Negated class: any character (line feed included) not listed. -/
  | notOf (cs : List Char)
  deriving DecidableEq

/-- Membership of a character in a one-character matcher. -/
def CharSet.accepts : CharSet → Char → Bool
  | .lit c, x => decide (x = c)
  | .dot, x => decide (x ≠ Char.ofNat 10)
  | .notOf cs, x => decide (x ∉ cs)

/-- Regular expressions built from the operators that occur in SourceRegex. -/
inductive Regex where
  /-- Exactly one character of the set. -/
  | one (m : CharSet)
  /-- Greedy one-or-more repetition of a one-character matcher. -/
  | plus (m : CharSet)
  /-- Concatenation. -/
  | seq (a b : Regex)
  /-- Capturing group. -/
  | cap (r : Regex)
  deriving DecidableEq

/-- Concatenation of the literal characters cs followed by r. -/
def Regex.ofLits : List Char → Regex → Regex
  | [], r => r
  | c :: cs, r => .seq (.one (.lit c)) (Regex.ofLits cs r)

/-- Greedy repetition with backtracking: consume one accepted character, then
prefer consuming more, and only when that fails hand what is left to the
continuation k. -/
def plusLoop {R : Type} (p : Char → Bool) (k : List Char → Option R) : List Char → Option R
  | [] => none
  | c :: s =>
    if p c then
      match plusLoop p k s with
      | some r => some r
      | none => k s
    else none

/-- Backtracking matcher in continuation-passing style.  The input is the text
still to be read, caps the groups closed so far (in closing order), and k
continues with the text left over. -/
def Regex.run {R : Type} : Regex → List Char → List (List Char) →
    (List Char → List (List Char) → Option R) → Option R
  | .one _, [], _, _ => none
  | .one m, c :: s, caps, k => if m.accepts c then k s caps else none
  | .plus m, s, caps, k => plusLoop m.accepts (fun t => k t caps) s
  | .seq a b, s, caps, k => a.run s caps (fun t caps1 => b.run t caps1 k)
  | .cap r, s, caps, k =>
    r.run s caps (fun t caps1 => k t (caps1 ++ [s.take (s.length - t.length)]))

/-- Match anchored at the start of s: the whole match followed by the groups. -/
def Regex.matchAt (re : Regex) (s : List Char) : Option (List (List Char)) :=
  re.run s [] (fun t caps => some (s.take (s.length - t.length) :: caps))

/-- Leftmost match: try every start position from left to right. -/
def Regex.findFrom (re : Regex) : List Char → Option (List (List Char))
  | [] => re.matchAt []
  | c :: s =>
    match re.matchAt (c :: s) with
    | some r => some r
    | none => Regex.findFrom re s

/-- Model of (*Regexp).FindStringSubmatch: the leftmost match and its groups, or
the nil slice (empty list) when there is no match. -/
def Regex.FindStringSubmatch (re : Regex) (s : String) : List String :=
  match re.findFrom s.data with
  | some r => r.map String.mk
  | none => []

/-! ## providers/gitlab/provider.go: constants and Match -/

/-- SourceFormat is the format string for GitLab release tarballs. -/
def SourceFormat : String := "https://gitlab.com/%s/-/archive/%s/%s.tar.gz"

/-- TagsEndpoint is the API endpoint URL for GitLab project tags. -/
def TagsEndpoint : String := "https://gitlab.com/api/v4/projects/%s/repository/tags"

/-- SourceRegex is regexp.MustCompile("gitlab.com/([^/]+/[^/.]+)"); the dot
between gitlab and com is the unescaped any-character operator. -/
def SourceRegex : Regex :=
  Regex.ofLits "gitlab".data
    (.seq (.one .dot)
      (Regex.ofLits "com/".data
        (.cap (.seq (.plus (.notOf ['/']))
          (.seq (.one (.lit '/')) (.plus (.notOf ['/', '.'])))))))

/-- Match checks to see if this provider can handle this kind of query. -/
def Match (query : String) : String :=
  let sm := SourceRegex.FindStringSubmatch query
  if sm.length ≠ 2 then "" else sm.getD 1 ""

/-- Name gives the name of this provider. -/
def Name : String := "GitLab"

/-! ## package strings and package fmt, as called by the source -/

/-- Character-level worker of Split. -/
def splitChars (sep : Char) : List Char → List (List Char)
  | [] => [[]]
  | c :: s =>
    if c = sep then [] :: splitChars sep s
    else
      match splitChars sep s with
      | [] => [[c]]
      | h :: t => (c :: h) :: t

/-- Model of strings.Split(s, sep) for a separator of one character, the only
way the source calls it: the pieces of s between the separators, so that a
string with k separators has k+1 pieces. -/
def Split (s : String) (sep : Char) : List String :=
  (splitChars sep s.data).map String.mk

/-- Character-level worker of Replace. -/
def replaceChars (old : Char) (new : List Char) : Nat → List Char → List Char
  | 0, s => s
  | _ + 1, [] => []
  | n + 1, c :: s =>
    if c = old then new ++ replaceChars old new n s
    else c :: replaceChars old new (n + 1) s

/-- Model of strings.Replace(s, old, new, n) for a one-character old and a
count n that is not negative: the first n occurrences of old are replaced. -/
def Replace (s : String) (old : Char) (new : String) (n : Nat) : String :=
  String.mk (replaceChars old new.data n s.data)

/-- Rendering of operands left over after the format is used up, as fmt does
it for strings. -/
def sprintfExtra (args : List String) : List Char :=
  "%!(EXTRA ".data ++ (", ".intercalate (args.map (fun a => "string=" ++ a))).data ++ ")".data

/-- Character-level worker of Sprintf. -/
def sprintfChars : List Char → List String → List Char
  | [], [] => []
  | [], a :: args => sprintfExtra (a :: args)
  | [c], args => c :: sprintfChars [] args
  | c :: d :: fmt, args =>
    if c = '%' ∧ d = 's' then
      match args with
      | [] => "%!s(MISSING)".data ++ sprintfChars fmt []
      | a :: rest => a.data ++ sprintfChars fmt rest
    else if c = '%' ∧ d = '%' then '%' :: sprintfChars fmt args
    else c :: sprintfChars (d :: fmt) args

/-- Model of fmt.Sprintf for string operands and the verbs %s and %%, the only
ones in the formats of this package; any other character is copied. -/
def Sprintf (format : String) (args : List String) : String :=
  String.mk (sprintfChars format.data args)

/-! ## package time and package results -/

/-- A time.Time value as seconds and nanoseconds since January 1 of year 1,
00:00:00 UTC. -/
structure Time where
  sec : Int
  nsec : Nat
  deriving DecidableEq

/-- The zero Time, which is what time.Parse returns together with an error. -/
def Time.zero : Time := ⟨0, 0⟩

/-- Modelled from the spec: the tri-state Status of package results, which is
not among the sources: one of OK, NotFound, Unavailable. -/
inductive Status where
  | OK
  | NotFound
  | Unavailable
  deriving DecidableEq

/-- Modelled from the spec: the Result record of package results, which is not
among the sources: name, version, location and publish timestamp. -/
structure Result where
  Name : String
  Version : String
  Location : String
  Published : Time
  deriving DecidableEq

/-- Modelled from the spec: results.NewResult, which is not among the sources,
builds the Result record from its four arguments.  Name, location and publish
timestamp are stored as handed in.  What it makes of the version argument is
described nowhere, so that is the parameter render: the version field is the
rendering of the version argument. -/
def NewResult (render : String → String) (name version location : String)
    (published : Time) : Result :=
  ⟨name, render version, location, published⟩

/-- Modelled from the spec: the ResultSet of package results, which is not among
the sources: an ordered sequence of Result. -/
structure ResultSet where
  results : List Result
  deriving DecidableEq

/-- Modelled from the spec: (*ResultSet).Last, which is not among the sources,
returns the last element of the set as currently ordered, without sorting; the
empty set has none (a nil Result). -/
def ResultSet.Last (rs : ResultSet) : Option Result :=
  rs.results.getLast?

/-! ## providers/gitlab/tag.go -/

/-- Commit is a JSON representation of a GitLab commit. -/
structure Commit where
  AuthoredDate : String
  deriving DecidableEq

/-- Release is a JSON representation of a GitLab tag release.  A tag without a
release (JSON null) decodes to the zero value, both fields empty. -/
structure Release where
  TagName : String
  Description : String
  deriving DecidableEq

/-- Tag is a JSON representation of a GitLab tag. -/
structure Tag where
  Name : String
  Commit : Commit
  Release : Release
  deriving DecidableEq

/-- An HTTP response as far as Releases reads it. -/
structure Response where
  StatusCode : Int
  Body : String
  deriving DecidableEq

/-- The collaborators outside the package.  httpGet is http.Get (an error text
or a response); jsonDecode is json.NewDecoder(body).Decode(&keys), giving the
contents of keys afterwards (possibly partly filled) and the error text if
decoding failed; timeParse is time.Parse(time.RFC3339, value), none standing
for an error, which the library always reports for the empty string;
newVersion is what results.NewResult, which is not among the sources, makes of
its version argument. -/
structure World where
  httpGet : String → Except String Response
  jsonDecode : String → List Tag × Option String
  timeParse : String → Option Time
  timeParse_empty : timeParse "" = none
  newVersion : String → String

/-- Convert turns a GitLab tag into a Cuppa result.  The value none stands for
the run-time panic of indexing the split of name out of range. -/
def Tag.Convert (W : World) (gl : Tag) (name : String) : Option Result :=
  let published := (W.timeParse gl.Commit.AuthoredDate).getD Time.zero
  match (Split name '/')[1]? with
  | none => none
  | some base =>
    let file := Sprintf "%s-%s" [base, gl.Name]
    let loc := Sprintf SourceFormat [name, gl.Name, file]
    some (NewResult W.newVersion name gl.Release.TagName loc published)

/-- Modelled from the spec: the type Tags, which is not among the sources, wraps
the decoded list of tags. -/
structure Tags where
  items : List Tag
  deriving DecidableEq

/-- Conversion of the tags one after the other, stopping at the first panic. -/
def convertAll (W : World) (name : String) : List Tag → Option (List Result)
  | [] => some []
  | t :: ts =>
    match Tag.Convert W t name with
    | none => none
    | some r =>
      match convertAll W name ts with
      | none => none
      | some rs => some (r :: rs)

/-- Modelled from the spec: (*Tags).Convert, which is not among the sources,
normalizes every tag into a Result with Tag.Convert, preserving response
order. -/
def Tags.Convert (W : World) (gl : Tags) (name : String) : Option ResultSet :=
  (convertAll W name gl.items).map ResultSet.mk

/-! ## providers/gitlab/provider.go: Releases and Latest -/

/-- What a call did and returned: the URLs handed to http.Get in order, the
lines written to standard error, and the returned values (none for a run-time
panic). -/
structure Run (α : Type) where
  requests : List String
  stderr : List String
  ret : Option α

/-- The argument that Releases hands to http.Get: the id with its first slash
replaced (strings.Replace with count 1), put into TagsEndpoint. -/
def requestURL (name : String) : String :=
  let encoded := Replace name '/' "%2f" 1
  Sprintf TagsEndpoint [encoded]

/-- Releases finds all matching releases for a GitLab package.  The returned
pair is the named results rs (none for the nil pointer) and s. -/
def Releases (W : World) (name : String) : Run (Option ResultSet × Status) :=
  let url := requestURL name
  match W.httpGet url with
  | .error err => ⟨[url], [err], some (none, Status.Unavailable)⟩
  | .ok resp =>
    let s : Status :=
      if resp.StatusCode = 200 then Status.OK
      else if resp.StatusCode = 404 then Status.NotFound
      else Status.Unavailable
    if s ≠ Status.OK then ⟨[url], [], some (none, s)⟩
    else
      match W.jsonDecode resp.Body with
      | (_, some err) => ⟨[url], [err], some (none, Status.Unavailable)⟩
      | (keys, none) =>
        ⟨[url], [], (Tags.Convert W ⟨keys⟩ name).map (fun rs => (some rs, s))⟩

/-- Latest finds the newest release for a GitLab package.  The returned pair
is the named results r (none for the nil pointer) and s. -/
def Latest (W : World) (name : String) : Run (Option Result × Status) :=
  let run := Releases W name
  match run.ret with
  | none => ⟨run.requests, run.stderr, none⟩
  | some (rs, s) =>
    if s ≠ Status.OK then ⟨run.requests, run.stderr, some (none, s)⟩
    else
      match rs with
      | none => ⟨run.requests, run.stderr, none⟩
      | some set => ⟨run.requests, run.stderr, some (set.Last, s)⟩

/-! ## Sample values -/

/-- A tag with a release of the same label and a well-formed date. -/
def sampleTag : Tag := ⟨"v1.2.3", ⟨"2020-01-01T00:00:00Z"⟩, ⟨"v1.2.3", "first"⟩⟩

/-- A tag without a release and without a date. -/
def bareTag : Tag := ⟨"v1.2.3", ⟨""⟩, ⟨"", ""⟩⟩

/-- Another tag without a release and without a date, of another name. -/
def otherBareTag : Tag := ⟨"v2.0.0", ⟨""⟩, ⟨"", ""⟩⟩

/-- The Result of sampleTag for the project id foo/bar. -/
def sampleResult : Result :=
  ⟨"foo/bar", "v1.2.3", "https://gitlab.com/foo/bar/-/archive/v1.2.3/bar-v1.2.3.tar.gz",
    ⟨63713433600, 0⟩⟩

/-- The Result of bareTag for the project id foo/bar. -/
def bareResult : Result :=
  ⟨"foo/bar", "", "https://gitlab.com/foo/bar/-/archive/v1.2.3/bar-v1.2.3.tar.gz", Time.zero⟩

/-- A world whose server answers 200 with the two sample tags, and whose
results package stores the version argument as it is. -/
def sampleWorld : World where
  httpGet := fun _ => .ok ⟨200, "[..]"⟩
  jsonDecode := fun _ => ([sampleTag, bareTag], none)
  timeParse := fun s => if s = "2020-01-01T00:00:00Z" then some ⟨63713433600, 0⟩ else none
  timeParse_empty := by decide
  newVersion := fun v => v

end Gitlab

namespace Gitlab

/-! ## The matcher -/

theorem plusLoop_greedy {R : Type} (p : Char → Bool) (k : List Char → Option R)
    (xs rest : List Char) (r : R) (hne : xs ≠ []) (hall : ∀ c ∈ xs, p c = true)
    (hstop : plusLoop p k rest = none) (hk : k rest = some r) :
    plusLoop p k (xs ++ rest) = some r := by
  induction xs with
  | nil => exact absurd rfl hne
  | cons x xs ih =>
    have hx : p x = true := hall x (List.mem_cons_self x xs)
    by_cases hxs : xs = []
    · subst hxs
      simp [plusLoop, hx, hstop, hk]
    · have h := ih hxs (fun c hc => hall c (List.mem_cons_of_mem x hc))
      simp [plusLoop, hx, h]

theorem plusLoop_stop {R : Type} (p : Char → Bool) (k : List Char → Option R)
    (rest : List Char) (h : ∀ c, rest.head? = some c → p c = false) :
    plusLoop p k rest = none := by
  cases rest with
  | nil => rfl
  | cons c t => simp [plusLoop, h c rfl]

theorem run_ofLits_append {R : Type} (cs : List Char) (r : Regex) (t : List Char)
    (caps : List (List Char)) (k : List Char → List (List Char) → Option R) :
    (Regex.ofLits cs r).run (cs ++ t) caps k = r.run t caps k := by
  induction cs with
  | nil => rfl
  | cons c cs ih => simp [Regex.ofLits, Regex.run, CharSet.accepts, ih]

theorem run_ofLits_some {R : Type} (cs : List Char) (r : Regex) (s : List Char)
    (caps : List (List Char)) (k : List Char → List (List Char) → Option R) (x : R)
    (h : (Regex.ofLits cs r).run s caps k = some x) :
    ∃ t, s = cs ++ t ∧ r.run t caps k = some x := by
  induction cs generalizing s with
  | nil => exact ⟨s, rfl, h⟩
  | cons c cs ih =>
    cases s with
    | nil => simp [Regex.ofLits, Regex.run] at h
    | cons d s =>
      simp only [Regex.ofLits, Regex.run, CharSet.accepts] at h
      by_cases hd : d = c
      · subst hd
        simp only [decide_True, if_true] at h
        obtain ⟨t, ht, hr⟩ := ih s h
        exact ⟨t, by rw [ht]; rfl, hr⟩
      · simp [hd] at h

theorem take_of_eq_append (x a b : List Char) (h : x = a ++ b) :
    x.take (x.length - b.length) = a := by
  subst h
  simp

theorem matchAt_source (c : Char) (hc : c ≠ Char.ofNat 10) (o p suf : List Char)
    (ho : o ≠ []) (ho1 : '/' ∉ o) (hp : p ≠ []) (hp1 : '/' ∉ p) (hp2 : '.' ∉ p)
    (hsuf : ∀ x, suf.head? = some x → x = '/' ∨ x = '.') :
    SourceRegex.matchAt ("gitlab".data ++ (c :: ("com/".data ++ (o ++ '/' :: (p ++ suf))))) =
      some ["gitlab".data ++ (c :: ("com/".data ++ (o ++ '/' :: p))), o ++ '/' :: p] := by
  unfold Regex.matchAt SourceRegex
  rw [run_ofLits_append]
  simp only [Regex.run, CharSet.accepts, hc, ne_eq, not_false_eq_true, decide_True, if_true,
    List.append_eq, List.nil_append]
  apply plusLoop_greedy _ _ o _ _ ho
  · intro x hx
    have : x ≠ '/' := fun h => ho1 (h ▸ hx)
    simp [CharSet.accepts, this]
  · apply plusLoop_stop
    intro x hx
    simp only [List.head?_cons, Option.some.injEq] at hx
    subst hx
    simp [CharSet.accepts]
  · simp only [Regex.run, CharSet.accepts, decide_True, if_true]
    apply plusLoop_greedy _ _ p _ _ hp
    · intro x hx
      have h1 : x ≠ '/' := fun h => hp1 (h ▸ hx)
      have h2 : x ≠ '.' := fun h => hp2 (h ▸ hx)
      simp [CharSet.accepts, h1, h2]
    · apply plusLoop_stop
      intro x hx
      rcases hsuf x hx with h | h <;> subst h <;> simp [CharSet.accepts]
    · rw [take_of_eq_append _ ("gitlab".data ++ (c :: ("com/".data ++ (o ++ '/' :: p)))) suf
          (by simp),
        take_of_eq_append _ (o ++ '/' :: p) suf (by simp)]
      rfl

theorem matchAt_source_head (s : List Char) (r : List (List Char))
    (h : SourceRegex.matchAt s = some r) : ∃ t, s = "gitlab".data ++ t := by
  unfold Regex.matchAt SourceRegex at h
  obtain ⟨t, ht, _⟩ := run_ofLits_some _ _ _ _ _ _ h
  exact ⟨t, ht⟩

theorem findFrom_of_matchAt (re : Regex) (s : List Char) (r : List (List Char))
    (h : re.matchAt s = some r) : re.findFrom s = some r := by
  cases s with
  | nil => simpa [Regex.findFrom] using h
  | cons c s => simp [Regex.findFrom, h]

theorem findFrom_skip (re : Regex) (pre t : List Char)
    (h : ∀ a b, pre = a ++ b → b ≠ [] → re.matchAt (b ++ t) = none) :
    re.findFrom (pre ++ t) = re.findFrom t := by
  induction pre with
  | nil => rfl
  | cons c pre ih =>
    have h0 : re.matchAt (c :: (pre ++ t)) = none := h [] (c :: pre) rfl (by simp)
    have h1 := ih (fun a b hab hb => h (c :: a) b (by rw [hab]; rfl) hb)
    show Regex.findFrom re (c :: (pre ++ t)) = _
    simp [Regex.findFrom, h0, h1]

theorem no_straddle (pre a b t : List Char) (hpre : ¬ "gitlab".data <:+: pre)
    (hsplit : pre = a ++ b) (hb : b ≠ []) (u : List Char) :
    b ++ ("gitlab".data ++ t) ≠ "gitlab".data ++ u := by
  intro h
  rcases b with _ | ⟨b1, _ | ⟨b2, _ | ⟨b3, _ | ⟨b4, _ | ⟨b5, _ | ⟨b6, b7⟩⟩⟩⟩⟩⟩
  · exact hb rfl
  · simp at h
  · simp at h
  · simp at h
  · simp at h
  · simp at h
  · apply hpre
    simp only [List.cons_append, List.cons.injEq] at h
    obtain ⟨h1, h2, h3, h4, h5, h6, _⟩ := h
    subst h1 h2 h3 h4 h5 h6
    exact ⟨a, b7, by rw [hsplit]; simp⟩

theorem findFrom_source (pre o p suf : List Char) (hpre : ¬ "gitlab".data <:+: pre)
    (ho : o ≠ []) (ho1 : '/' ∉ o) (hp : p ≠ []) (hp1 : '/' ∉ p) (hp2 : '.' ∉ p)
    (hsuf : ∀ x, suf.head? = some x → x = '/' ∨ x = '.') :
    SourceRegex.findFrom (pre ++ ("gitlab.com/".data ++ (o ++ '/' :: (p ++ suf)))) =
      some ["gitlab.com/".data ++ (o ++ '/' :: p), o ++ '/' :: p] := by
  have hm := matchAt_source '.' (by decide) o p suf ho ho1 hp hp1 hp2 hsuf
  rw [findFrom_skip]
  · exact findFrom_of_matchAt _ _ _ hm
  · intro a b hab hb
    cases hr : SourceRegex.matchAt (b ++ ("gitlab.com/".data ++ (o ++ '/' :: (p ++ suf)))) with
    | none => rfl
    | some r =>
      obtain ⟨u, hu⟩ := matchAt_source_head _ _ hr
      exact absurd hu (no_straddle pre a b _ hpre hab hb u)

/-! ## Match -/

/-- C1: Match extracts owner/project from any query that contains
gitlab.com/owner/project, whatever stands in front (as long as it has no
occurrence of gitlab) and whatever follows the project after a dot or slash. -/
theorem Match_extracts (pre owner project suf : String)
    (hpre : ¬ "gitlab".data <:+: pre.data)
    (ho : owner ≠ "") (ho1 : '/' ∉ owner.data)
    (hp : project ≠ "") (hp1 : '/' ∉ project.data) (hp2 : '.' ∉ project.data)
    (hsuf : suf = "" ∨ suf.data.head? = some '.' ∨ suf.data.head? = some '/') :
    Match (pre ++ "gitlab.com/" ++ owner ++ "/" ++ project ++ suf) = owner ++ "/" ++ project := by
  have ho0 : owner.data ≠ [] := fun h => ho (String.ext h)
  have hp0 : project.data ≠ [] := fun h => hp (String.ext h)
  have hs : ∀ x, suf.data.head? = some x → x = '/' ∨ x = '.' := by
    intro x hx
    rcases hsuf with h | h | h
    · subst h
      simp at hx
    · rw [h] at hx
      exact Or.inr (Option.some.inj hx).symm
    · rw [h] at hx
      exact Or.inl (Option.some.inj hx).symm
  have hf := findFrom_source pre.data owner.data project.data suf.data hpre ho0 ho1 hp0 hp1 hp2 hs
  have hd : (pre ++ "gitlab.com/" ++ owner ++ "/" ++ project ++ suf).data =
      pre.data ++ ("gitlab.com/".data ++ (owner.data ++ '/' :: (project.data ++ suf.data))) := by
    simp [String.data_append]
  unfold Match Regex.FindStringSubmatch
  rw [hd, hf]
  apply String.ext
  simp [String.data_append]

/-- Witness for C1 at the query of the spec, https://gitlab.com/foo/bar.git. -/
theorem Match_extracts_witness :
    Match "https://gitlab.com/foo/bar.git" = "foo/bar" :=
  Match_extracts "https://" "foo" "bar" ".git" (by decide) (by decide) (by decide) (by decide)
    (by decide) (by decide) (by decide)

/-- C2: the unescaped dot of the pattern lets a query without the literal host
text gitlab.com through: Match returns foo/bar for https://gitlabXcom/foo/bar. -/
theorem Match_accepts_other_host :
    Match "https://gitlabXcom/foo/bar" = "foo/bar" ∧
      ¬ "gitlab.com".data <:+: "https://gitlabXcom/foo/bar".data := by
  decide

/-! ## Split and Sprintf -/

theorem splitChars_ne_nil (sep : Char) (s : List Char) : splitChars sep s ≠ [] := by
  induction s with
  | nil => simp [splitChars]
  | cons c s ih =>
    by_cases h : c = sep
    · simp [splitChars, h]
    · cases hs : splitChars sep s with
      | nil => exact absurd hs ih
      | cons a t => simp [splitChars, h, hs]

theorem splitChars_no_sep (sep : Char) (s : List Char) (h : sep ∉ s) :
    splitChars sep s = [s] := by
  induction s with
  | nil => rfl
  | cons c s ih =>
    have hc : c ≠ sep := fun e => h (e ▸ List.mem_cons_self c s)
    have hs : sep ∉ s := fun e => h (List.mem_cons_of_mem c e)
    simp [splitChars, hc, ih hs]

theorem splitChars_append (sep : Char) (a b : List Char) (h : sep ∉ a) :
    splitChars sep (a ++ sep :: b) = a :: splitChars sep b := by
  induction a with
  | nil => simp [splitChars]
  | cons c a ih =>
    have hc : c ≠ sep := fun e => h (e ▸ List.mem_cons_self c a)
    have hs : sep ∉ a := fun e => h (List.mem_cons_of_mem c e)
    simp [splitChars, hc, ih hs]

theorem splitChars_second (sep : Char) (s : List Char) (h : sep ∈ s) :
    ∃ x, (splitChars sep s)[1]? = some x := by
  induction s with
  | nil => simp at h
  | cons c s ih =>
    by_cases hc : c = sep
    · cases hs : splitChars sep s with
      | nil => exact absurd hs (splitChars_ne_nil sep s)
      | cons a t => exact ⟨a, by simp [splitChars, hc, hs]⟩
    · have hmem : sep ∈ s := by
        rcases List.mem_cons.mp h with e | e
        · exact absurd e.symm hc
        · exact e
      obtain ⟨x, hx⟩ := ih hmem
      cases hs : splitChars sep s with
      | nil => exact absurd hs (splitChars_ne_nil sep s)
      | cons a t =>
        rw [hs] at hx
        exact ⟨x, by simpa [splitChars, hc, hs] using hx⟩

theorem Split_second_none (name : String) (h : '/' ∉ name.data) :
    (Split name '/')[1]? = none := by
  simp [Split, splitChars_no_sep _ _ h]

theorem Split_second_of_mem (name : String) (hmem : '/' ∈ name.data) :
    ∃ base, (Split name '/')[1]? = some base := by
  obtain ⟨x, hx⟩ := splitChars_second '/' _ hmem
  refine ⟨String.mk x, ?_⟩
  show ((splitChars '/' name.data).map String.mk)[1]? = _
  rw [List.getElem?_map, hx]
  rfl

theorem Split_second_some (owner rest : String) :
    ∃ base, (Split (owner ++ "/" ++ rest) '/')[1]? = some base :=
  Split_second_of_mem _ (by simp [String.data_append])

theorem Split_second_project (owner project : String) (ho : '/' ∉ owner.data)
    (hp : '/' ∉ project.data) :
    (Split (owner ++ "/" ++ project) '/')[1]? = some project := by
  have hd : (owner ++ "/" ++ project).data = owner.data ++ '/' :: project.data := by
    simp [String.data_append]
  simp [Split, hd, splitChars_append _ _ _ ho, splitChars_no_sep _ _ hp]

theorem sprintfChars_lit (c : Char) (fmt : List Char) (args : List String) (hc : c ≠ '%') :
    sprintfChars (c :: fmt) args = c :: sprintfChars fmt args := by
  cases fmt with
  | nil => simp [sprintfChars]
  | cons d fmt => simp [sprintfChars, hc]

theorem sprintfChars_lits (cs fmt : List Char) (args : List String) (hc : '%' ∉ cs) :
    sprintfChars (cs ++ fmt) args = cs ++ sprintfChars fmt args := by
  induction cs with
  | nil => rfl
  | cons c cs ih =>
    have h1 : c ≠ '%' := fun e => hc (e ▸ List.mem_cons_self c cs)
    have h2 : '%' ∉ cs := fun e => hc (List.mem_cons_of_mem c e)
    rw [List.cons_append, sprintfChars_lit _ _ _ h1, ih h2, List.cons_append]

theorem sprintfChars_verb (fmt : List Char) (a : String) (args : List String) :
    sprintfChars ('%' :: 's' :: fmt) (a :: args) = a.data ++ sprintfChars fmt args := by
  simp [sprintfChars]

theorem Sprintf_SourceFormat (a b c : String) :
    Sprintf SourceFormat [a, b, c] =
      "https://gitlab.com/" ++ a ++ "/-/archive/" ++ b ++ "/" ++ c ++ ".tar.gz" := by
  have hf : SourceFormat.data = "https://gitlab.com/".data ++ ('%' :: 's' ::
      ("/-/archive/".data ++ ('%' :: 's' :: ("/".data ++ ('%' :: 's' ::
        (".tar.gz".data ++ [])))))) := by decide
  apply String.ext
  simp only [Sprintf, hf]
  rw [sprintfChars_lits _ _ _ (by decide), sprintfChars_verb,
    sprintfChars_lits _ _ _ (by decide), sprintfChars_verb,
    sprintfChars_lits _ _ _ (by decide), sprintfChars_verb,
    sprintfChars_lits _ _ _ (by decide)]
  simp [sprintfChars, String.data_append]

theorem Sprintf_file (a b : String) : Sprintf "%s-%s" [a, b] = a ++ "-" ++ b := by
  have hf : "%s-%s".data = ['%', 's', '-', '%', 's'] := by decide
  apply String.ext
  simp only [Sprintf, hf]
  rw [sprintfChars_verb, sprintfChars_lit _ _ _ (by decide), sprintfChars_verb]
  simp [sprintfChars, String.data_append]

theorem Sprintf_TagsEndpoint (e : String) :
    Sprintf TagsEndpoint [e] = "https://gitlab.com/api/v4/projects/" ++ e ++ "/repository/tags" := by
  have hf : TagsEndpoint.data = "https://gitlab.com/api/v4/projects/".data ++ ('%' :: 's' ::
      ("/repository/tags".data ++ [])) := by decide
  apply String.ext
  simp only [Sprintf, hf]
  rw [sprintfChars_lits _ _ _ (by decide), sprintfChars_verb,
    sprintfChars_lits _ _ _ (by decide)]
  simp [sprintfChars, String.data_append]

/-! ## Tag.Convert -/

theorem Convert_of_split (W : World) (t : Tag) (name base : String)
    (h : (Split name '/')[1]? = some base) :
    Tag.Convert W t name = some
      { Name := name
        Version := W.newVersion t.Release.TagName
        Location := "https://gitlab.com/" ++ name ++ "/-/archive/" ++ t.Name ++ "/" ++
          (base ++ "-" ++ t.Name) ++ ".tar.gz"
        Published := (W.timeParse t.Commit.AuthoredDate).getD Time.zero } := by
  simp [Tag.Convert, h, NewResult, Sprintf_SourceFormat, Sprintf_file]

theorem Convert_none_of_no_slash (W : World) (t : Tag) (name : String)
    (h : '/' ∉ name.data) : Tag.Convert W t name = none := by
  simp [Tag.Convert, Split_second_none name h]

/-- C3, as the code has it: the version of a converted tag comes from the
tag_name of its release descriptor, not from the name of the tag.  For every
tag and every project id of the form owner/project, Convert returns a Result
whose version is what results.NewResult makes of the release tag_name, so any
other tag with the same release tag_name gets the same version, whatever its
name. -/
theorem Convert_version_is_release_tag (W : World) (t : Tag) (owner project : String) :
    ∃ r, Tag.Convert W t (owner ++ "/" ++ project) = some r ∧
      r.Version = W.newVersion t.Release.TagName ∧
      ∀ t2 : Tag, t2.Release.TagName = t.Release.TagName →
        ∃ r2, Tag.Convert W t2 (owner ++ "/" ++ project) = some r2 ∧
          r2.Version = r.Version := by
  obtain ⟨base, hb⟩ := Split_second_some owner project
  refine ⟨_, Convert_of_split W t _ base hb, rfl, ?_⟩
  intro t2 h2
  exact ⟨_, Convert_of_split W t2 _ base hb, by simp [h2]⟩

/-- C3 fails as stated: the two tags named v1.2.3 and v2.0.0, both without a
release, hand the same (empty) tag_name to results.NewResult, so whatever
NewResult makes of its version argument, the two results for the project id
foo/bar cannot have the versions v1.2.3 and v2.0.0. -/
theorem Convert_version_not_label :
    bareTag.Name = "v1.2.3" ∧ otherBareTag.Name = "v2.0.0" ∧
      ¬ ∃ W : World,
        (Tag.Convert W bareTag "foo/bar").map (fun r => r.Version) = some "v1.2.3" ∧
        (Tag.Convert W otherBareTag "foo/bar").map (fun r => r.Version) = some "v2.0.0" := by
  refine ⟨rfl, rfl, ?_⟩
  rintro ⟨W, h1, h2⟩
  have hs : (Split "foo/bar" '/')[1]? = some "bar" := by decide
  rw [Convert_of_split W bareTag "foo/bar" "bar" hs] at h1
  rw [Convert_of_split W otherBareTag "foo/bar" "bar" hs] at h2
  simp only [Option.map_some', Option.some.injEq] at h1 h2
  have h3 : "v1.2.3" = "v2.0.0" := h1.symm.trans h2
  exact absurd h3 (by decide)

/-- C4: the location of a converted tag is the archive URL built from owner,
project and the tag label, the file name being project-label. -/
theorem Convert_location (W : World) (t : Tag) (owner project : String)
    (ho : '/' ∉ owner.data) (hp : '/' ∉ project.data) :
    ∃ r, Tag.Convert W t (owner ++ "/" ++ project) = some r ∧
      r.Location = "https://gitlab.com/" ++ owner ++ "/" ++ project ++ "/-/archive/" ++
        t.Name ++ "/" ++ project ++ "-" ++ t.Name ++ ".tar.gz" := by
  refine ⟨_, Convert_of_split W t _ project (Split_second_project owner project ho hp), ?_⟩
  apply String.ext
  simp [String.data_append]

/-- Witness for C4: label v1.2.3 and project id foo/bar. -/
theorem Convert_location_witness :
    (Tag.Convert sampleWorld sampleTag "foo/bar").map (fun r => r.Location) =
      some "https://gitlab.com/foo/bar/-/archive/v1.2.3/bar-v1.2.3.tar.gz" := by
  obtain ⟨r, h1, h2⟩ :=
    Convert_location sampleWorld sampleTag "foo" "bar" (by decide) (by decide)
  have h3 : Tag.Convert sampleWorld sampleTag "foo/bar" = some r := h1
  rw [h3]
  exact congrArg some h2

/-- C7: a tag whose authored date is empty or is rejected by the RFC 3339
parser still converts; the result carries the zero timestamp, the project id
as name, and the same name and location as any other tag of the same label. -/
theorem Convert_bad_date (W : World) (t : Tag) (owner project : String)
    (hdate : t.Commit.AuthoredDate = "" ∨ W.timeParse t.Commit.AuthoredDate = none) :
    ∃ r, Tag.Convert W t (owner ++ "/" ++ project) = some r ∧
      r.Published = Time.zero ∧ r.Name = owner ++ "/" ++ project ∧
      ∀ t2 : Tag, t2.Name = t.Name →
        ∃ r2, Tag.Convert W t2 (owner ++ "/" ++ project) = some r2 ∧
          r2.Name = r.Name ∧ r2.Location = r.Location := by
  obtain ⟨base, hb⟩ := Split_second_some owner project
  have hnone : W.timeParse t.Commit.AuthoredDate = none := by
    rcases hdate with h | h
    · rw [h]
      exact W.timeParse_empty
    · exact h
  refine ⟨_, Convert_of_split W t _ base hb, ?_, rfl, ?_⟩
  · simp [hnone]
  · intro t2 h2
    exact ⟨_, Convert_of_split W t2 _ base hb, rfl, by simp [h2]⟩

/-- Witness for C7: the tag without a date, project id foo/bar. -/
theorem Convert_bad_date_witness :
    (Tag.Convert sampleWorld bareTag "foo/bar").map (fun r => (r.Name, r.Published)) =
      some ("foo/bar", Time.zero) := by
  obtain ⟨r, h1, h2, h3, _⟩ := Convert_bad_date sampleWorld bareTag "foo" "bar" (Or.inl rfl)
  have h4 : Tag.Convert sampleWorld bareTag "foo/bar" = some r := h1
  have h5 : r.Name = "foo/bar" := h3
  rw [h4]
  simp [h2, h5]

/-- C8 fails on the code: for a project id without a slash (foo, or the empty
string) the split has one piece, index 1 is out of range, and Convert panics
instead of returning a Result, whatever the tag. -/
theorem Convert_panics_without_slash :
    (∀ (W : World) (t : Tag), Tag.Convert W t "foo" = none) ∧
      (∀ (W : World) (t : Tag), Tag.Convert W t "" = none) :=
  ⟨fun W t => Convert_none_of_no_slash W t "foo" (by decide),
    fun W t => Convert_none_of_no_slash W t "" (by decide)⟩

/-! ## Releases and Latest -/

theorem convertAll_some (W : World) (name : String) (h : '/' ∈ name.data) (ts : List Tag) :
    ∃ rs, convertAll W name ts = some rs := by
  obtain ⟨base, hb⟩ := Split_second_of_mem name h
  induction ts with
  | nil => exact ⟨[], rfl⟩
  | cons t ts ih =>
    obtain ⟨rs, hrs⟩ := ih
    obtain ⟨r, hr⟩ : ∃ r, Tag.Convert W t name = some r :=
      ⟨_, Convert_of_split W t name base hb⟩
    exact ⟨r :: rs, by simp only [convertAll, hr, hrs]⟩

theorem Releases_error (W : World) (name err : String)
    (h : W.httpGet (requestURL name) = .error err) :
    Releases W name = ⟨[requestURL name], [err], some (none, Status.Unavailable)⟩ := by
  simp [Releases, h]

theorem Releases_not200 (W : World) (name : String) (resp : Response)
    (h : W.httpGet (requestURL name) = .ok resp) (hc : resp.StatusCode ≠ 200) :
    Releases W name = ⟨[requestURL name], [],
      some (none, if resp.StatusCode = 404 then Status.NotFound else Status.Unavailable)⟩ := by
  by_cases h4 : resp.StatusCode = 404 <;> simp [Releases, h, hc, h4]

theorem Releases_undecoded (W : World) (name : String) (resp : Response)
    (keys : List Tag) (err : String)
    (h : W.httpGet (requestURL name) = .ok resp) (hc : resp.StatusCode = 200)
    (hd : W.jsonDecode resp.Body = (keys, some err)) :
    Releases W name = ⟨[requestURL name], [err], some (none, Status.Unavailable)⟩ := by
  simp [Releases, h, hc, hd]

theorem Releases_decoded (W : World) (name : String) (resp : Response) (keys : List Tag)
    (h : W.httpGet (requestURL name) = .ok resp) (hc : resp.StatusCode = 200)
    (hd : W.jsonDecode resp.Body = (keys, none)) :
    Releases W name = ⟨[requestURL name], [],
      (Tags.Convert W ⟨keys⟩ name).map (fun rs => (some rs, Status.OK))⟩ := by
  simp [Releases, h, hc, hd]

theorem Releases_cases (W : World) (name : String) :
    (∃ err, W.httpGet (requestURL name) = .error err ∧
      Releases W name = ⟨[requestURL name], [err], some (none, Status.Unavailable)⟩) ∨
    (∃ resp, W.httpGet (requestURL name) = .ok resp ∧ resp.StatusCode ≠ 200 ∧
      Releases W name = ⟨[requestURL name], [],
        some (none, if resp.StatusCode = 404 then Status.NotFound else Status.Unavailable)⟩) ∨
    (∃ resp keys err, W.httpGet (requestURL name) = .ok resp ∧ resp.StatusCode = 200 ∧
      W.jsonDecode resp.Body = (keys, some err) ∧
      Releases W name = ⟨[requestURL name], [err], some (none, Status.Unavailable)⟩) ∨
    (∃ resp keys, W.httpGet (requestURL name) = .ok resp ∧ resp.StatusCode = 200 ∧
      W.jsonDecode resp.Body = (keys, none) ∧
      Releases W name = ⟨[requestURL name], [],
        (Tags.Convert W ⟨keys⟩ name).map (fun rs => (some rs, Status.OK))⟩) := by
  cases h : W.httpGet (requestURL name) with
  | error err => exact Or.inl ⟨err, rfl, Releases_error W name err h⟩
  | ok resp =>
    by_cases hc : resp.StatusCode = 200
    · cases hd : W.jsonDecode resp.Body with
      | mk keys e =>
        cases e with
        | none =>
          exact Or.inr (Or.inr (Or.inr ⟨resp, keys, rfl, hc, hd, Releases_decoded W name resp keys h hc hd⟩))
        | some err =>
          exact Or.inr (Or.inr (Or.inl
            ⟨resp, keys, err, rfl, hc, hd, Releases_undecoded W name resp keys err h hc hd⟩))
    · exact Or.inr (Or.inl ⟨resp, rfl, hc, Releases_not200 W name resp h hc⟩)

/-- C5: Releases maps the transport outcome to the Status exactly.  Whenever a
Status is returned it is NotFound iff a response with code 404 came back, OK
iff a response with code 200 came back and its body decoded, and Unavailable
in every other case (connection failure, another code, a body that does not
decode); and a Status is returned on every outcome when the id has a slash,
and on every outcome but a decoded 200 for any id at all. -/
theorem Releases_status (W : World) (name : String) :
    (∀ rs s, (Releases W name).ret = some (rs, s) →
      (s = Status.NotFound ↔
        ∃ resp, W.httpGet (requestURL name) = .ok resp ∧ resp.StatusCode = 404) ∧
      (s = Status.OK ↔
        ∃ resp keys, W.httpGet (requestURL name) = .ok resp ∧ resp.StatusCode = 200 ∧
          W.jsonDecode resp.Body = (keys, none)) ∧
      (s = Status.Unavailable ↔
        (∃ err, W.httpGet (requestURL name) = .error err) ∨
        (∃ resp, W.httpGet (requestURL name) = .ok resp ∧ resp.StatusCode ≠ 200 ∧
          resp.StatusCode ≠ 404) ∨
        (∃ resp keys err, W.httpGet (requestURL name) = .ok resp ∧ resp.StatusCode = 200 ∧
          W.jsonDecode resp.Body = (keys, some err)))) ∧
    (('/' ∈ name.data ∨
        ¬ ∃ resp keys, W.httpGet (requestURL name) = .ok resp ∧ resp.StatusCode = 200 ∧
          W.jsonDecode resp.Body = (keys, none)) →
      ∃ rs s, (Releases W name).ret = some (rs, s)) := by
  rcases Releases_cases W name with ⟨err, h, hr⟩ | ⟨resp, h, hc, hr⟩ |
    ⟨resp, keys, err, h, hc, hd, hr⟩ | ⟨resp, keys, h, hc, hd, hr⟩
  · refine ⟨?_, fun _ => ⟨_, _, by rw [hr]⟩⟩
    intro rs s hs
    rw [hr] at hs
    simp only [Option.some.injEq, Prod.mk.injEq] at hs
    obtain ⟨_, rfl⟩ := hs
    simp [h]
  · refine ⟨?_, fun _ => ⟨_, _, by rw [hr]⟩⟩
    intro rs s hs
    rw [hr] at hs
    simp only [Option.some.injEq, Prod.mk.injEq] at hs
    obtain ⟨_, rfl⟩ := hs
    by_cases h4 : resp.StatusCode = 404 <;> simp [h, hc, h4]
  · refine ⟨?_, fun _ => ⟨_, _, by rw [hr]⟩⟩
    intro rs s hs
    rw [hr] at hs
    simp only [Option.some.injEq, Prod.mk.injEq] at hs
    obtain ⟨_, rfl⟩ := hs
    simp [h, hc, hd]
  · constructor
    · intro rs s hs
      rw [hr] at hs
      cases hconv : Tags.Convert W ⟨keys⟩ name with
      | none => simp [hconv] at hs
      | some set =>
        simp only [hconv, Option.map_some', Option.some.injEq, Prod.mk.injEq] at hs
        obtain ⟨_, rfl⟩ := hs
        simp [h, hc, hd]
    · intro hor
      rcases hor with hmem | hno
      · obtain ⟨l, hl⟩ := convertAll_some W name hmem keys
        exact ⟨some ⟨l⟩, Status.OK, by rw [hr]; simp [Tags.Convert, hl]⟩
      · exact absurd ⟨resp, keys, h, hc, hd⟩ hno

/-- C6: Latest is Releases followed by taking the last element.  Whatever
Releases returns, Latest returns the same Status; with a Status other than OK
it returns no Result; with OK it returns the last element of the set in the
order Releases produced it, the second one of a two-element set. -/
theorem Latest_is_last (W : World) (name : String) (rs : Option ResultSet) (s : Status)
    (h : (Releases W name).ret = some (rs, s)) :
    (s ≠ Status.OK → (Latest W name).ret = some (none, s)) ∧
    (s = Status.OK → ∃ set, rs = some set ∧
      (Latest W name).ret = some (set.results.getLast?, s) ∧
      ∀ a b, set.results = [a, b] → (Latest W name).ret = some (some b, s)) := by
  constructor
  · intro hs
    simp [Latest, h, hs]
  · intro hs
    subst hs
    rcases Releases_cases W name with ⟨err, _, hr⟩ | ⟨resp, _, _, hr⟩ |
      ⟨resp, keys, err, _, _, _, hr⟩ | ⟨resp, keys, _, _, _, hr⟩
    · rw [hr] at h
      simp at h
    · rw [hr] at h
      by_cases h4 : resp.StatusCode = 404 <;> simp [h4] at h
    · rw [hr] at h
      simp at h
    · rw [hr] at h
      cases hconv : Tags.Convert W ⟨keys⟩ name with
      | none => simp [hconv] at h
      | some set =>
        simp only [hconv, Option.map_some', Option.some.injEq, Prod.mk.injEq, and_true] at h
        subst h
        have hl : (Latest W name).ret = some (set.results.getLast?, Status.OK) := by
          simp [Latest, hr, hconv, ResultSet.Last]
        refine ⟨set, rfl, hl, ?_⟩
        intro a b hab
        rw [hl, hab]
        rfl

/-- Witness for C6: the server answers 200 with two tags; Latest returns the
Result of the second one, although its timestamp (zero) is the older. -/
theorem Latest_is_last_witness :
    (Latest sampleWorld "foo/bar").ret = some (some bareResult, Status.OK) := by
  have hrel : (Releases sampleWorld "foo/bar").ret =
      some (some ⟨[sampleResult, bareResult]⟩, Status.OK) := by decide
  obtain ⟨set, h1, _, h3⟩ := (Latest_is_last sampleWorld "foo/bar" _ _ hrel).2 rfl
  cases h1
  exact h3 sampleResult bareResult rfl

/-- C9: Releases is all-or-nothing.  Whenever it returns a Status other than OK
the returned set is nil; and on every outcome other than a decoded 200
(connection failure, another code, a body that fails to decode whatever was
decoded before the failure) it does return, with nil and such a Status. -/
theorem Releases_all_or_nothing (W : World) (name : String) :
    (∀ rs s, (Releases W name).ret = some (rs, s) → s ≠ Status.OK → rs = none) ∧
    ((¬ ∃ resp keys, W.httpGet (requestURL name) = .ok resp ∧ resp.StatusCode = 200 ∧
          W.jsonDecode resp.Body = (keys, none)) →
      ∃ s, (Releases W name).ret = some (none, s) ∧ s ≠ Status.OK) := by
  rcases Releases_cases W name with ⟨err, _, hr⟩ | ⟨resp, _, _, hr⟩ |
    ⟨resp, keys, err, _, _, _, hr⟩ | ⟨resp, keys, h, hc, hd, hr⟩
  · refine ⟨?_, fun _ => ⟨Status.Unavailable, by rw [hr], by decide⟩⟩
    intro rs s hs _
    rw [hr] at hs
    simp only [Option.some.injEq, Prod.mk.injEq] at hs
    exact hs.1.symm
  · refine ⟨?_, fun _ => ⟨_, by rw [hr], ?_⟩⟩
    · intro rs s hs _
      rw [hr] at hs
      simp only [Option.some.injEq, Prod.mk.injEq] at hs
      exact hs.1.symm
    · by_cases h4 : resp.StatusCode = 404 <;> simp [h4]
  · refine ⟨?_, fun _ => ⟨Status.Unavailable, by rw [hr], by decide⟩⟩
    intro rs s hs _
    rw [hr] at hs
    simp only [Option.some.injEq, Prod.mk.injEq] at hs
    exact hs.1.symm
  · refine ⟨?_, fun hno => absurd ⟨resp, keys, h, hc, hd⟩ hno⟩
    intro rs s hs hne
    rw [hr] at hs
    cases hconv : Tags.Convert W ⟨keys⟩ name with
    | none => simp [hconv] at hs
    | some set =>
      simp only [hconv, Option.map_some', Option.some.injEq, Prod.mk.injEq] at hs
      exact absurd hs.2.symm hne

theorem replaceChars_no (old : Char) (new s : List Char) (n : Nat) (h : old ∉ s) :
    replaceChars old new n s = s := by
  induction s generalizing n with
  | nil => cases n <;> rfl
  | cons c s ih =>
    have hc : c ≠ old := fun e => h (e ▸ List.mem_cons_self c s)
    have hs : old ∉ s := fun e => h (List.mem_cons_of_mem c e)
    cases n with
    | zero => rfl
    | succ n => simp [replaceChars, hc, ih (n + 1) hs]

theorem replaceChars_first (old : Char) (new a b : List Char) (h : old ∉ a) :
    replaceChars old new 1 (a ++ old :: b) = a ++ new ++ b := by
  induction a with
  | nil => simp [replaceChars]
  | cons c a ih =>
    have hc : c ≠ old := fun e => h (e ▸ List.mem_cons_self c a)
    have hs : old ∉ a := fun e => h (List.mem_cons_of_mem c e)
    simp [replaceChars, hc, ih hs]

theorem Releases_requests (W : World) (name : String) :
    (Releases W name).requests = [requestURL name] := by
  rcases Releases_cases W name with ⟨err, _, hr⟩ | ⟨resp, _, _, hr⟩ |
    ⟨resp, keys, err, _, _, _, hr⟩ | ⟨resp, keys, _, _, _, hr⟩ <;> rw [hr]

/-- C10: Releases issues one request, to the tags endpoint of the id with its
first slash percent-encoded: the id unchanged when it has no slash, and
a%2fb when the id is a/b with no slash in a; for an id owner/project with one
slash the encoded id has no slash left. -/
theorem Releases_request_url (W : World) (name : String) :
    ∃ e, (Releases W name).requests =
        ["https://gitlab.com/api/v4/projects/" ++ e ++ "/repository/tags"] ∧
      ('/' ∉ name.data → e = name) ∧
      ∀ a b : String, name = a ++ "/" ++ b → '/' ∉ a.data →
        e = a ++ "%2f" ++ b ∧ ('/' ∉ b.data → '/' ∉ e.data) := by
  refine ⟨Replace name '/' "%2f" 1, ?_, ?_, ?_⟩
  · rw [Releases_requests, requestURL, Sprintf_TagsEndpoint]
  · intro h
    apply String.ext
    simp [Replace, replaceChars_no _ _ _ _ h]
  · intro a b hab ha
    have he : Replace name '/' "%2f" 1 = a ++ "%2f" ++ b := by
      apply String.ext
      subst hab
      have hd : (a ++ "/" ++ b).data = a.data ++ '/' :: b.data := by
        simp [String.data_append]
      simp [Replace, hd, replaceChars_first _ _ _ _ ha, String.data_append]
    refine ⟨he, fun hb => ?_⟩
    rw [he]
    simp [String.data_append, ha, hb]

theorem convertAll_map (W : World) (name : String) (ts : List Tag) (rs : List Result)
    (h : convertAll W name ts = some rs) :
    rs.map some = ts.map (fun t => Tag.Convert W t name) := by
  induction ts generalizing rs with
  | nil =>
    simp only [convertAll, Option.some.injEq] at h
    subst h
    rfl
  | cons t ts ih =>
    cases ht : Tag.Convert W t name with
    | none => simp [convertAll, ht] at h
    | some r =>
      cases hts : convertAll W name ts with
      | none => simp [convertAll, ht, hts] at h
      | some l =>
        simp only [convertAll, ht, hts, Option.some.injEq] at h
        subst h
        simp [ht, ih l hts]

/-- C11: on a 200 response whose body decodes to a list of tags, Releases for an
id of the form owner/project returns Status OK and a set with one Result per
tag, the i-th being Tag.Convert of the i-th tag, in response order; two tags
give exactly the two Results in that order. -/
theorem Releases_normalizes_in_order (W : World) (owner project : String)
    (resp : Response) (keys : List Tag)
    (hget : W.httpGet (requestURL (owner ++ "/" ++ project)) = .ok resp)
    (hcode : resp.StatusCode = 200)
    (hdec : W.jsonDecode resp.Body = (keys, none)) :
    ∃ set, (Releases W (owner ++ "/" ++ project)).ret = some (some set, Status.OK) ∧
      set.results.length = keys.length ∧
      (∀ i, i < keys.length →
        (set.results[i]?).map some =
          (keys[i]?).map (fun t => Tag.Convert W t (owner ++ "/" ++ project))) ∧
      ∀ t1 t2, keys = [t1, t2] → ∃ r1 r2, set.results = [r1, r2] ∧
        Tag.Convert W t1 (owner ++ "/" ++ project) = some r1 ∧
        Tag.Convert W t2 (owner ++ "/" ++ project) = some r2 := by
  have hmem : '/' ∈ (owner ++ "/" ++ project).data := by simp [String.data_append]
  obtain ⟨l, hl⟩ := convertAll_some W _ hmem keys
  have hmap := convertAll_map W _ keys l hl
  have hlen : l.length = keys.length := by
    have := congrArg List.length hmap
    simpa using this
  refine ⟨⟨l⟩, ?_, hlen, ?_, ?_⟩
  · rw [Releases_decoded W _ resp keys hget hcode hdec]
    simp [Tags.Convert, hl]
  · intro i _
    have := congrArg (fun x => x[i]?) hmap
    simpa [List.getElem?_map] using this
  · intro t1 t2 hk
    subst hk
    match l, hlen, hmap with
    | [r1, r2], _, hm =>
      simp only [List.map_cons, List.map_nil, List.cons.injEq, and_true] at hm
      exact ⟨r1, r2, rfl, hm.1.symm, hm.2.symm⟩

/-- Witness for C11: the server answers 200 with two tags for foo/bar; the set
holds their two Results in response order. -/
theorem Releases_normalizes_in_order_witness :
    (Releases sampleWorld "foo/bar").ret =
      some (some ⟨[sampleResult, bareResult]⟩, Status.OK) := by
  obtain ⟨set, h1, _, _, h4⟩ :=
    Releases_normalizes_in_order sampleWorld "foo" "bar" ⟨200, "[..]"⟩ [sampleTag, bareTag]
      rfl rfl rfl
  obtain ⟨r1, r2, h5, h6, h7⟩ := h4 sampleTag bareTag rfl
  have e1 : r1 = sampleResult :=
    Option.some.inj (h6.symm.trans (by decide))
  have e2 : r2 = bareResult :=
    Option.some.inj (h7.symm.trans (by decide))
  have h8 : (Releases sampleWorld "foo/bar").ret = some (some set, Status.OK) := h1
  rw [h8]
  cases set with
  | mk results =>
    simp only at h5
    rw [h5, e1, e2]

/-! ## What Match can return -/

theorem plusLoop_some {R : Type} (p : Char → Bool) (k : List Char → Option R)
    (s : List Char) (r : R) (h : plusLoop p k s = some r) :
    ∃ xs rest, xs ≠ [] ∧ (∀ c ∈ xs, p c = true) ∧ s = xs ++ rest ∧ k rest = some r := by
  induction s with
  | nil => simp [plusLoop] at h
  | cons c s ih =>
    by_cases hp : p c = true
    · simp only [plusLoop, hp, if_true] at h
      cases hrec : plusLoop p k s with
      | none =>
        rw [hrec] at h
        refine ⟨[c], s, by simp, ?_, rfl, h⟩
        intro x hx
        rw [List.mem_singleton.mp hx]
        exact hp
      | some r1 =>
        rw [hrec] at h
        simp only [Option.some.injEq] at h
        subst h
        obtain ⟨xs, rest, _, hall, hs, hk⟩ := ih hrec
        refine ⟨c :: xs, rest, by simp, ?_, by rw [hs]; rfl, hk⟩
        intro x hx
        rcases List.mem_cons.mp hx with e | e
        · rw [e]
          exact hp
        · exact hall x e
    · simp [plusLoop, hp] at h

theorem findFrom_some (re : Regex) (s : List Char) (r : List (List Char))
    (h : re.findFrom s = some r) : ∃ a b, s = a ++ b ∧ re.matchAt b = some r := by
  induction s with
  | nil => exact ⟨[], [], rfl, by simpa [Regex.findFrom] using h⟩
  | cons c s ih =>
    cases hm : re.matchAt (c :: s) with
    | some r1 =>
      simp only [Regex.findFrom, hm, Option.some.injEq] at h
      subst h
      exact ⟨[], c :: s, rfl, hm⟩
    | none =>
      simp only [Regex.findFrom, hm] at h
      obtain ⟨a, b, hab, hb⟩ := ih h
      exact ⟨c :: a, b, by rw [hab]; rfl, hb⟩

theorem run_seq_one {R : Type} (m : CharSet) (r : Regex) (c : Char) (t : List Char)
    (caps : List (List Char)) (k : List Char → List (List Char) → Option R) :
    (Regex.seq (.one m) r).run (c :: t) caps k =
      if m.accepts c then r.run t caps k else none := rfl

theorem matchAt_source_some (s : List Char) (r : List (List Char))
    (h : SourceRegex.matchAt s = some r) :
    ∃ whole o p, r = [whole, o ++ '/' :: p] ∧ o ≠ [] ∧ '/' ∉ o ∧
      p ≠ [] ∧ '/' ∉ p ∧ '.' ∉ p := by
  unfold Regex.matchAt SourceRegex at h
  obtain ⟨t1, _, h1⟩ := run_ofLits_some _ _ _ _ _ _ h
  cases t1 with
  | nil => simp [Regex.run] at h1
  | cons c t1 =>
    rw [run_seq_one] at h1
    by_cases hc : (CharSet.dot).accepts c = true
    · simp only [hc, if_true] at h1
      obtain ⟨t2, _, h2⟩ := run_ofLits_some _ _ _ _ _ _ h1
      simp only [Regex.run] at h2
      obtain ⟨o, rest1, ho, hoall, ht2, h3⟩ := plusLoop_some _ _ _ _ h2
      cases rest1 with
      | nil => simp [Regex.run] at h3
      | cons d rest1 =>
        simp only [Regex.run] at h3
        by_cases hd : (CharSet.lit '/').accepts d = true
        · simp only [hd, if_true] at h3
          obtain ⟨p, suf, hp, hpall, hrest, h4⟩ := plusLoop_some _ _ _ _ h3
          have hd1 : d = '/' := by simpa [CharSet.accepts] using hd
          subst hd1
          rw [take_of_eq_append t2 (o ++ '/' :: p) suf (by rw [ht2, hrest]; simp)] at h4
          simp only [List.nil_append, Option.some.injEq] at h4
          refine ⟨_, o, p, h4.symm, ho, ?_, hp, ?_, ?_⟩
          · intro hm
            simpa [CharSet.accepts] using hoall _ hm
          · intro hm
            simpa [CharSet.accepts] using hpall _ hm
          · intro hm
            simpa [CharSet.accepts] using hpall _ hm
        · simp [hd] at h3
    · simp [hc] at h1

theorem Match_form (q : String) (h : Match q ≠ "") :
    ∃ o p : List Char, Match q = String.mk (o ++ '/' :: p) ∧ o ≠ [] ∧ '/' ∉ o ∧
      p ≠ [] ∧ '/' ∉ p ∧ '.' ∉ p := by
  unfold Match Regex.FindStringSubmatch at h ⊢
  cases hf : SourceRegex.findFrom q.data with
  | none => simp [hf] at h
  | some r =>
    obtain ⟨a, b, _, hb⟩ := findFrom_some _ _ _ hf
    obtain ⟨whole, o, p, hr, ho, ho1, hp, hp1, hp2⟩ := matchAt_source_some b r hb
    subst hr
    exact ⟨o, p, by simp, ho, ho1, hp, hp1, hp2⟩

/-- C12: every identifier Match produces is well-formed for the rest of the
pipeline.  A non-empty result is owner/project with exactly one slash, a
non-empty owner, and a non-empty project without slash or dot; its split has
exactly the two pieces owner and project, so Tag.Convert returns a Result for
it, and the encoding of its first slash in Releases leaves no slash. -/
theorem Match_well_formed (q : String) (h : Match q ≠ "") :
    ∃ owner project : String, Match q = owner ++ "/" ++ project ∧
      owner ≠ "" ∧ '/' ∉ owner.data ∧
      project ≠ "" ∧ '/' ∉ project.data ∧ '.' ∉ project.data ∧
      (Match q).data.count '/' = 1 ∧
      Split (Match q) '/' = [owner, project] ∧
      (∀ (W : World) (t : Tag), ∃ r, Tag.Convert W t (Match q) = some r) ∧
      Replace (Match q) '/' "%2f" 1 = owner ++ "%2f" ++ project ∧
      '/' ∉ (Replace (Match q) '/' "%2f" 1).data := by
  obtain ⟨o, p, hm, ho, ho1, hp, hp1, hp2⟩ := Match_form q h
  have hform : Match q = String.mk o ++ "/" ++ String.mk p := by
    rw [hm]
    apply String.ext
    simp [String.data_append]
  have hsplit : Split (Match q) '/' = [String.mk o, String.mk p] := by
    rw [hm]
    simp [Split, splitChars_append _ _ _ ho1, splitChars_no_sep _ _ hp1]
  have hrep : Replace (Match q) '/' "%2f" 1 = String.mk o ++ "%2f" ++ String.mk p := by
    rw [hm]
    apply String.ext
    simp [Replace, replaceChars_first _ _ _ _ ho1, String.data_append]
  refine ⟨String.mk o, String.mk p, hform, ?_, ho1, ?_, hp1, hp2, ?_, hsplit, ?_, hrep, ?_⟩
  · intro e
    exact ho (congrArg String.data e)
  · intro e
    exact hp (congrArg String.data e)
  · rw [hm]
    simp [List.count_append, List.count_eq_zero_of_not_mem ho1,
      List.count_eq_zero_of_not_mem hp1]
  · intro W t
    exact ⟨_, Convert_of_split W t _ (String.mk p) (by rw [hsplit]; rfl)⟩
  · rw [hrep]
    simp [String.data_append, ho1, hp1]

/-- Witness for C12: the identifier that Match extracts from the query
https://gitlab.com/foo/bar.git splits into two pieces and encodes without a
slash left. -/
theorem Match_well_formed_witness :
    (Split (Match "https://gitlab.com/foo/bar.git") '/').length = 2 ∧
      '/' ∉ (Replace (Match "https://gitlab.com/foo/bar.git") '/' "%2f" 1).data := by
  obtain ⟨owner, project, _, _, _, _, _, _, _, hsplit, _, _, hrep⟩ :=
    Match_well_formed "https://gitlab.com/foo/bar.git" (by decide)
  rw [hsplit]
  exact ⟨rfl, hrep⟩

end Gitlab
